import Mathlib

/-!
Shallow embedding of the tracker-request camouflage engine
(repository charleshuang3/camouflagetorrentclients).

Go strings are byte strings; we model them as `List Char` where every
character stands for one byte (code point < 256).  All definitions are
translated from the Go source files named in the doc comments.
-/

namespace Camouflage

/-- Convert a Lean string literal to the byte-character list model of a Go string. -/
def gs (s : String) : List Char := s.data

/-! ### `commons/common.go`: query model -/

/-- `commons.QueryParam`: an ordered (name, value) pair. -/
structure QueryParam where
  name : List Char
  value : List Char
deriving DecidableEq, Repr

/-- `commons.QueryDef`: the three constructors `MustHaveDef`, `OptionalDef`, `FixedDef`
(common.go lines 20-36); the stored `process` closure is represented by the tag. -/
inductive QueryDef where
  | mustHave (name : List Char)
  | optional (name : List Char)
  | fixed (name value : List Char)
deriving DecidableEq, Repr

/-! ### `net/url.Values` (Go standard library), as used by the source

Go's `url.Values` is a `map[string][]string`; map iteration order is never
observed by this program (only `Get`, `Has`, `Set` by key), so an association
list is a faithful model. -/

/-- Model of Go `url.Values`. -/
abbrev Values : Type := List (List Char × List (List Char))

/-- Go `url.Values.Get`: first value for the key, `""` when absent or empty. -/
def Values.get (q : Values) (k : List Char) : List Char :=
  match q.find? (fun p => p.1 = k) with
  | none => []
  | some (_, vs) =>
    match vs with
    | [] => []
    | v :: _ => v

/-- Go `url.Values.Has`: whether the key is present in the map. -/
def Values.has (q : Values) (k : List Char) : Bool :=
  (q.find? (fun p => p.1 = k)).isSome

/-- Go `url.Values.Set`: replace the key's values with the single given value. -/
def Values.set : Values → List Char → List Char → Values
  | [], k, v => [(k, [v])]
  | (k', vs) :: rest, k, v =>
    if k' = k then (k, [v]) :: rest else (k', vs) :: Values.set rest k v

/-- `(*QueryDef).mustHave` / `optional` / `fixed` (common.go lines 38-54):
the returned `Option QueryParam` is `none` when an optional parameter is dropped. -/
def QueryDef.process : QueryDef → Values → Except (List Char) (Option QueryParam)
  | .mustHave n, q =>
    if q.has n then .ok (some ⟨n, q.get n⟩)
    else .error (gs "query " ++ n ++ gs " not found")
  | .optional n, q =>
    if q.has n then .ok (some ⟨n, q.get n⟩) else .ok none
  | .fixed n v, _ => .ok (some ⟨n, v⟩)

/-- `commons.ProcessQuery` (common.go lines 63-75): iterate the defs in order,
abort on the first error, drop absent optionals. -/
def ProcessQuery : List QueryDef → Values → Except (List Char) (List QueryParam)
  | [], _ => .ok []
  | d :: ds, q =>
    match d.process q with
    | .error e => .error e
    | .ok none => ProcessQuery ds q
    | .ok (some p) =>
      match ProcessQuery ds q with
      | .error e => .error e
      | .ok ps => .ok (p :: ps)

/-! ### Go `net/url` query-component percent-encoding, as used by
`url.QueryEscape` / `url.QueryUnescape` in common.go -/

/-- Characters Go's `shouldEscape(c, encodeQueryComponent)` leaves unescaped:
alphanumerics and `-_.~`. -/
def isUnreservedQ (c : Char) : Bool :=
  (('A' ≤ c && c ≤ 'Z') || ('a' ≤ c && c ≤ 'z') || ('0' ≤ c && c ≤ '9')
    || c = '-' || c = '_' || c = '.' || c = '~')

/-- Go's `upperhex` table indexing. -/
def upperHexDigit (n : Nat) : Char := (gs "0123456789ABCDEF").getD n '0'

/-- One byte of Go `url.QueryEscape`: keep unreserved bytes, space becomes `+`,
everything else becomes `%HH` with uppercase hex. -/
def escapeChar (c : Char) : List Char :=
  if isUnreservedQ c then [c]
  else if c = ' ' then ['+']
  else ['%', upperHexDigit (c.toNat / 16 % 16), upperHexDigit (c.toNat % 16)]

/-- Go `url.QueryEscape` on a byte string. -/
def queryEscape (s : List Char) : List Char := s.flatMap escapeChar

/-- `commons.QueryParams.Str` (common.go lines 77-89): `name=value` pairs,
query-escaped, joined by `&`. -/
def paramsStr (l : List QueryParam) : List Char :=
  List.intercalate (gs "&")
    (l.map (fun p => queryEscape p.name ++ '=' :: queryEscape p.value))

/-- Whether a character is an ASCII hex digit (Go's `ishex`). -/
def isHexChar (c : Char) : Bool :=
  ('0' ≤ c && c ≤ '9') || ('a' ≤ c && c ≤ 'f') || ('A' ≤ c && c ≤ 'F')

/-- Numeric value of an ASCII hex digit (Go's `unhex`). -/
def hexVal (c : Char) : Nat :=
  if '0' ≤ c && c ≤ '9' then c.toNat - '0'.toNat
  else if 'a' ≤ c && c ≤ 'f' then c.toNat - 'a'.toNat + 10
  else if 'A' ≤ c && c ≤ 'F' then c.toNat - 'A'.toNat + 10
  else 0

/-- Go `url.QueryUnescape`: `%HH` decodes to a byte, `+` decodes to space,
malformed `%` sequences fail. -/
def queryUnescape : List Char → Option (List Char)
  | [] => some []
  | c :: rest =>
    if c = '%' then
      match rest with
      | a :: b :: rest2 =>
        if isHexChar a && isHexChar b then
          (queryUnescape rest2).map (fun t => Char.ofNat (16 * hexVal a + hexVal b) :: t)
        else none
      | _ => none
    else if c = '+' then (queryUnescape rest).map (fun t => ' ' :: t)
    else (queryUnescape rest).map (fun t => c :: t)

/-- One `&`-separated fragment of `commons.QueryParamsFromRawQueryStr`
(common.go lines 96-109): exactly one `=`, both sides query-unescaped. -/
def parsePair (pair : List Char) : Except (List Char) QueryParam :=
  match pair.splitOn '=' with
  | [k, v] =>
    match queryUnescape k, queryUnescape v with
    | some k', some v' => .ok ⟨k', v'⟩
    | _, _ => .error (gs "invalid query param " ++ pair)
  | _ => .error (gs "invalid query param " ++ pair)

/-- Error-propagating map over the fragments, preserving order. -/
def parsePairs : List (List Char) → Except (List Char) (List QueryParam)
  | [] => .ok []
  | f :: fs =>
    match parsePair f with
    | .error e => .error e
    | .ok p =>
      match parsePairs fs with
      | .error e => .error e
      | .ok ps => .ok (p :: ps)

/-- `commons.QueryParamsFromRawQueryStr` (common.go lines 91-112): empty input
gives the empty sequence; otherwise split on `&` and parse each fragment. -/
def QueryParamsFromRawQueryStr (s : List Char) : Except (List Char) (List QueryParam) :=
  if s = [] then .ok [] else parsePairs (s.splitOn '&')

/-! ### `transmission/announce.go`: data model -/

/-- `transmission.perTorrent`: the stored identity (peer_id, key). -/
structure PerTorrent where
  peerID : List Char
  key : List Char
deriving DecidableEq, Repr

/-- The parts of Go `net/url.URL` this program reads or writes.  `path` is the
URL path and `rawQuery` the raw query string; `host` stands for the authority. -/
structure URL where
  scheme : List Char
  host : List Char
  path : List Char
  rawQuery : List Char
deriving DecidableEq, Repr

/-- `transmission.mimickTransmission`'s mutable state: the `torrents` sync.Map
(id -> perTorrent) and the set of task ids registered in the `tasks.Scheduler`. -/
structure TrState where
  torrents : List (List Char × PerTorrent)
  scheduler : List (List Char)
deriving DecidableEq, Repr

/-- Lookup in the `torrents` map. -/
def lookupTorrent (ts : List (List Char × PerTorrent)) (id : List Char) : Option PerTorrent :=
  (ts.find? (fun p => p.1 = id)).map (fun p => p.2)

/-- `sync.Map.LoadOrStore` (announce.go line 100): return the existing value
and `true`, or store the fresh value and return it with `false`. -/
def loadOrStore (ts : List (List Char × PerTorrent)) (id : List Char) (fresh : PerTorrent) :
    PerTorrent × Bool × List (List Char × PerTorrent) :=
  match lookupTorrent ts id with
  | some pt => (pt, true, ts)
  | none => (fresh, false, ts ++ [(id, fresh)])

/-- `sync.Map.Delete` (announce.go line 107). -/
def deleteTorrent (ts : List (List Char × PerTorrent)) (id : List Char) :
    List (List Char × PerTorrent) :=
  ts.filter (fun p => ¬ p.1 = id)

/-- `tasks.Scheduler.Del` (announce.go line 108): remove the named task. -/
def schedDel (sch : List (List Char)) (id : List Char) : List (List Char) :=
  sch.filter (fun x => ¬ x = id)

/-- `tasks.Scheduler.AddWithID` at the membership level (scrape.go line 146):
register the id; a second add for an id already present leaves the set unchanged. -/
def schedAdd (sch : List (List Char)) (id : List Char) : List (List Char) :=
  if id ∈ sch then sch else sch ++ [id]

/-- `transmission.announceURL` (announce.go lines 202-206): the URL rendered
with its query stripped, i.e. scheme://authority/path. -/
def announceURL (u : URL) : List Char :=
  u.scheme ++ gs "://" ++ u.host ++ u.path

/-- `transmission.perTrackerTorrentID` (announce.go lines 208-210). -/
def perTrackerTorrentID (u : URL) (infoHash : List Char) : List Char :=
  announceURL u ++ gs "--" ++ infoHash

/-- Go `strings.Index` as an option: index of the first occurrence of `pat`. -/
def firstSubstrIdx (pat : List Char) : List Char → Option Nat
  | [] => if pat = [] then some 0 else none
  | c :: rest =>
    if pat.isPrefixOf (c :: rest) then some 0
    else (firstSubstrIdx pat rest).map (fun i => i + 1)

/-- The private-tracker query extraction (announce.go lines 72-76): the
substring of the raw query strictly before the first `&compact`, else empty. -/
def privateTrackerQueryOf (rawQuery : List Char) : List Char :=
  match firstSubstrIdx (gs "&compact") rawQuery with
  | some i => rawQuery.take i
  | none => []

/-- The character set for the random part of a peer id (announce.go line 171). -/
def peerIDCharSet : List Char := gs "0123456789abcdefghijklmnopqrstuvwxyz"

/-- One byte of Go `fmt.Sprintf("%X", bytes)`: two uppercase hex digits. -/
def byteHexUpper (b : Nat) : List Char :=
  [upperHexDigit (b / 16 % 16), upperHexDigit (b % 16)]

/-- `transmission.createPerTorrent` (announce.go lines 167-200), with the
randomness made explicit: `ns` are the 12 draws of `rand.Int(rand.Reader, 36)`
and `ks` the 4 random key bytes.  peer_id is `-TR4060-` plus the 12 charset
characters; key is `fmt.Sprintf("%08X", ks)`, i.e. 8 uppercase hex characters. -/
def createPerTorrent (ns ks : List Nat) : PerTorrent :=
  { peerID := gs "-TR4060-" ++ ns.map (fun n => peerIDCharSet.getD n '0'),
    key := ks.flatMap byteHexUpper }

/-! ### `transmission/scrape.go` -/

/-- The element pass of Go `path.Clean` on a rooted path: empty and `.`
elements are dropped, `..` pops the previous element (and is dropped at the
root). -/
def cleanFold (stack : List (List Char)) : List (List Char) → List (List Char)
  | [] => stack
  | e :: es =>
    if e = [] ∨ e = gs "." then cleanFold stack es
    else if e = gs ".." then cleanFold stack.dropLast es
    else cleanFold (stack ++ [e]) es

/-- Go `path.Clean` on a rooted path, by the standard stack interpretation;
the surviving elements are re-joined with `/`. -/
def rootedClean (p : List Char) : List Char :=
  match cleanFold [] (p.splitOn '/') with
  | [] => gs "/"
  | stack => '/' :: List.intercalate (gs "/") stack

/-- Go `(*url.URL).JoinPath(elem)` on the path component: join with `/` and
clean; a relative base is made rooted first and the leading slash dropped after. -/
def urlJoinPath (p elem : List Char) : List Char :=
  if (gs "/").isPrefixOf p then rootedClean (p ++ '/' :: elem)
  else (rootedClean ('/' :: p ++ '/' :: elem)).drop 1

/-- `transmission.scrapeURL` (scrape.go lines 96-113): decline when the path
does not end in `/announce`; otherwise join `../scrape` onto the path and set
the query to `info_hash=<escaped>`, prefixed by the private query when present. -/
def scrapeURL (u : URL) (infoHash ptq : List Char) : Option URL :=
  if ¬ (gs "/announce").isSuffixOf u.path then none
  else
    let infoHashQuery := gs "info_hash=" ++ queryEscape infoHash
    some { u with
      path := urlJoinPath u.path (gs "../scrape"),
      rawQuery := if ptq ≠ [] then ptq ++ '&' :: infoHashQuery else infoHashQuery }

/-- `transmission.newScrapeTask` (scrape.go lines 84-94): `nil` exactly when
`scrapeURL` declines; the task retains only the resolved scrape URL. -/
def newScrapeTask (u : URL) (infoHash ptq : List Char) : Option URL :=
  scrapeURL u infoHash ptq

/-- `transmission.scheduleScrape` (scrape.go lines 142-155) at the membership
level: a `nil` task is ignored, otherwise the task id is registered. -/
def scheduleScrape (sch : List (List Char)) (id : List Char) (task : Option URL) :
    List (List Char) :=
  match task with
  | none => sch
  | some _ => schedAdd sch id

/-- The initial scrape delay in milliseconds (scrape.go line 149):
`rand.Int64N(9*1000) + 1000`, where `r` is the random draw in `[0, 9000)`. -/
def scrapeStartDelayMs (r : Nat) : Nat := r + 1000

/-! ### `transmission/announce.go`: the announce rewriter -/

/-- The fixed rule list of `modifyQuery` (announce.go lines 122-137). -/
def announceQueryDefs : List QueryDef :=
  [.mustHave (gs "info_hash"), .mustHave (gs "peer_id"), .mustHave (gs "port"),
   .mustHave (gs "uploaded"), .mustHave (gs "downloaded"), .mustHave (gs "left"),
   .mustHave (gs "numwant"), .mustHave (gs "key"), .mustHave (gs "compact"),
   .mustHave (gs "supportcrypto"),
   .optional (gs "requirecrypto"), .optional (gs "event"),
   .optional (gs "corrupt"), .optional (gs "trackerid")]

/-- The `q.Set` calls of `modifyQuery` (announce.go lines 91, 119, 120):
`numwant` forced to `80`, `peer_id` and `key` overridden from the identity. -/
def finalValues (q : Values) (pt : PerTorrent) : Values :=
  ((q.set (gs "numwant") (gs "80")).set (gs "peer_id") pt.peerID).set (gs "key") pt.key

/-- Raw-query assembly (announce.go lines 144-148). -/
def assembleRaw (ptq : List Char) (params : List QueryParam) : List Char :=
  if ptq ≠ [] then ptq ++ '&' :: paramsStr params else paramsStr params

/-- `(*mimickTransmission).modifyQuery` (announce.go lines 67-151).  Inputs:
`fresh` is the identity `createPerTorrent()` would produce on this call,
`st` the rewriter state, `u` the request URL and `q` its parsed query
(`r.URL.Query()`).  Returns the state after the call together with the
rewritten URL or the error; on an error the state mutations made before the
error point persist, as they do on the Go receiver. -/
def modifyQuery (fresh : PerTorrent) (st : TrState) (u : URL) (q : Values) :
    TrState × Except (List Char) URL :=
  let ptq := privateTrackerQueryOf u.rawQuery
  if q.has (gs "numwant") then
    (st, .error (gs "anacrolix/torrent provides numwant"))
  else if ¬ q.get (gs "compact") = gs "1" then
    (st, .error (gs "anacrolix/torrent provides compact!=1"))
  else if ¬ q.get (gs "supportcrypto") = gs "1" then
    (st, .error (gs "anacrolix/torrent provides supportcrypto!=1"))
  else
    let q1 := q.set (gs "numwant") (gs "80")
    let infoHash := q1.get (gs "info_hash")
    if infoHash = [] then
      (st, .error (gs "missing info_hash"))
    else
      let event := q1.get (gs "event")
      let id := perTrackerTorrentID u infoHash
      let lr := loadOrStore st.torrents id fresh
      let got := lr.1
      let existed := lr.2.1
      let ts1 := lr.2.2
      let ts2 := if event = gs "stopped" then deleteTorrent ts1 id else ts1
      let sch2 := if event = gs "stopped" then schedDel st.scheduler id else st.scheduler
      let sch3 := if existed then sch2
        else scheduleScrape sch2 id (newScrapeTask u infoHash ptq)
      let q2 := (q1.set (gs "peer_id") got.peerID).set (gs "key") got.key
      match ProcessQuery announceQueryDefs q2 with
      | .error e => (⟨ts2, sch3⟩, .error e)
      | .ok params =>
        (⟨ts2, sch3⟩, .ok { u with rawQuery := assembleRaw ptq params })

/-- `(*mimickTransmission).HttpRequestDirector` (announce.go lines 52-65),
query part: a URL whose last path segment is `scrape` passes through
unmodified; every other request is rewritten by `modifyQuery`. -/
def HttpRequestDirector (fresh : PerTorrent) (st : TrState) (u : URL) (q : Values) :
    TrState × Except (List Char) URL :=
  if (u.path.splitOn '/').getLastD [] = gs "scrape" then (st, .ok u)
  else modifyQuery fresh st u q

/-- A fresh rewriter instance (`transmission.New`, announce.go lines 44-50). -/
def initialState : TrState := ⟨[], []⟩

/-- One announce call: the fresh identity the factory would mint, the request
URL, and its parsed query. -/
structure AnnounceCall where
  fresh : PerTorrent
  url : URL
  query : Values
deriving DecidableEq

/-- Run a sequence of `modifyQuery` calls, threading the state. -/
def runAnnounces (st : TrState) : List AnnounceCall → List (TrState × Except (List Char) URL)
  | [] => []
  | c :: cs =>
    let r := modifyQuery c.fresh st c.url c.query
    r :: runAnnounces r.1 cs

/-! ### Concrete inputs used by the closed instances below -/

/-- A sample identity the factory could mint. -/
def exFresh : PerTorrent := ⟨gs "-TR4060-aaaaaaaaaaaa", gs "0123ABCD"⟩

/-- A second sample identity, distinct from `exFresh`. -/
def exFresh2 : PerTorrent := ⟨gs "-TR4060-bbbbbbbbbbbb", gs "4567EF01"⟩

/-- A valid first announce with `event=started` on `http://t/tr/announce`. -/
def exStartURL : URL :=
  ⟨gs "http", gs "t", gs "/tr/announce",
   gs "compact=1&downloaded=0&event=started&info_hash=abc&left=5&port=1&supportcrypto=1&uploaded=0"⟩

/-- The parsed query of `exStartURL`. -/
def exStartQuery : Values :=
  [(gs "compact", [gs "1"]), (gs "downloaded", [gs "0"]), (gs "event", [gs "started"]),
   (gs "info_hash", [gs "abc"]), (gs "left", [gs "5"]), (gs "port", [gs "1"]),
   (gs "supportcrypto", [gs "1"]), (gs "uploaded", [gs "0"])]

/-- A valid follow-up announce with no event on the same tracker and torrent. -/
def exNoEventURL : URL :=
  ⟨gs "http", gs "t", gs "/tr/announce",
   gs "compact=1&downloaded=2&info_hash=abc&left=3&port=1&supportcrypto=1&uploaded=1"⟩

/-- The parsed query of `exNoEventURL`. -/
def exNoEventQuery : Values :=
  [(gs "compact", [gs "1"]), (gs "downloaded", [gs "2"]),
   (gs "info_hash", [gs "abc"]), (gs "left", [gs "3"]), (gs "port", [gs "1"]),
   (gs "supportcrypto", [gs "1"]), (gs "uploaded", [gs "1"])]

/-- A valid announce with `event=stopped` on the same tracker and torrent. -/
def exStopURL : URL :=
  ⟨gs "http", gs "t", gs "/tr/announce",
   gs "compact=1&downloaded=0&event=stopped&info_hash=abc&left=0&port=1&supportcrypto=1&uploaded=0"⟩

/-- The parsed query of `exStopURL`. -/
def exStopQuery : Values :=
  [(gs "compact", [gs "1"]), (gs "downloaded", [gs "0"]), (gs "event", [gs "stopped"]),
   (gs "info_hash", [gs "abc"]), (gs "left", [gs "0"]), (gs "port", [gs "1"]),
   (gs "supportcrypto", [gs "1"]), (gs "uploaded", [gs "0"])]

/-- The identity key of the announces above. -/
def exId : List Char := gs "http://t/tr/announce--abc"

/-- An announce missing the required `port` parameter (passes validation). -/
def exNoPortURL : URL :=
  ⟨gs "http", gs "t", gs "/tr/announce", gs "compact=1&info_hash=abc&supportcrypto=1"⟩

/-- The parsed query of `exNoPortURL`. -/
def exNoPortQuery : Values :=
  [(gs "compact", [gs "1"]), (gs "info_hash", [gs "abc"]), (gs "supportcrypto", [gs "1"])]

/-- An announce with `compact=0`, rejected by validation. -/
def exBadCompactURL : URL :=
  ⟨gs "http", gs "t", gs "/tr/announce",
   gs "compact=0&downloaded=0&info_hash=abc&left=5&port=1&supportcrypto=1&uploaded=0"⟩

/-- The parsed query of `exBadCompactURL`. -/
def exBadCompactQuery : Values :=
  [(gs "compact", [gs "0"]), (gs "downloaded", [gs "0"]),
   (gs "info_hash", [gs "abc"]), (gs "left", [gs "5"]), (gs "port", [gs "1"]),
   (gs "supportcrypto", [gs "1"]), (gs "uploaded", [gs "0"])]

/-- A valid announce carrying a private-tracker prefix `auth=1`. -/
def exAuthURL : URL :=
  ⟨gs "http", gs "t", gs "/tr/announce",
   gs "auth=1&compact=1&downloaded=0&info_hash=abc&left=5&port=1&supportcrypto=1&uploaded=0"⟩

/-- The parsed query of `exAuthURL`. -/
def exAuthQuery : Values :=
  [(gs "auth", [gs "1"]), (gs "compact", [gs "1"]), (gs "downloaded", [gs "0"]),
   (gs "info_hash", [gs "abc"]), (gs "left", [gs "5"]), (gs "port", [gs "1"]),
   (gs "supportcrypto", [gs "1"]), (gs "uploaded", [gs "0"])]

/-- A valid announce on a tracker whose path does not end in `/announce`. -/
def exNoScrapeURL : URL :=
  ⟨gs "http", gs "t", gs "/tr/ann",
   gs "compact=1&downloaded=0&event=started&info_hash=abc&left=5&port=1&supportcrypto=1&uploaded=0"⟩

/-! ### Lemmas: `url.Values` operations -/

theorem Values.get_set_self (q : Values) (k v : List Char) : (q.set k v).get k = v := by
  induction q with
  | nil => simp [Values.set, Values.get, List.find?]
  | cons p rest ih =>
    obtain ⟨k', vs⟩ := p
    by_cases h : k' = k
    · subst h; simp [Values.set, Values.get, List.find?]
    · simpa [Values.set, h, Values.get, List.find?] using ih

theorem Values.get_set_ne (q : Values) {k k' : List Char} (v : List Char) (h : k' ≠ k) :
    (q.set k v).get k' = q.get k' := by
  have h2 : ¬ k = k' := fun hc => h hc.symm
  induction q with
  | nil => simp [Values.set, Values.get, List.find?, h2]
  | cons p rest ih =>
    obtain ⟨k0, vs⟩ := p
    by_cases h0 : k0 = k
    · subst h0; simp [Values.set, Values.get, List.find?, h2]
    · by_cases h1 : k0 = k'
      · subst h1; simp [Values.set, h0, Values.get, List.find?]
      · simpa [Values.set, h0, Values.get, List.find?, h1] using ih

theorem Values.has_set_self (q : Values) (k v : List Char) : (q.set k v).has k = true := by
  induction q with
  | nil => simp [Values.set, Values.has, List.find?]
  | cons p rest ih =>
    obtain ⟨k', vs⟩ := p
    by_cases h : k' = k
    · subst h; simp [Values.set, Values.has, List.find?]
    · simpa [Values.set, h, Values.has, List.find?] using ih

theorem Values.has_set_ne (q : Values) {k k' : List Char} (v : List Char) (h : k' ≠ k) :
    (q.set k v).has k' = q.has k' := by
  have h2 : ¬ k = k' := fun hc => h hc.symm
  induction q with
  | nil => simp [Values.set, Values.has, List.find?, h2]
  | cons p rest ih =>
    obtain ⟨k0, vs⟩ := p
    by_cases h0 : k0 = k
    · subst h0; simp [Values.set, Values.has, List.find?, h2]
    · by_cases h1 : k0 = k'
      · subst h1; simp [Values.set, h0, Values.has, List.find?]
      · simpa [Values.set, h0, Values.has, List.find?, h1] using ih

theorem Values.has_of_get_ne (q : Values) (k : List Char) (h : ¬ q.get k = []) :
    q.has k = true := by
  unfold Values.get at h
  unfold Values.has
  cases hf : q.find? (fun p => p.1 = k) with
  | none => rw [hf] at h; simp at h
  | some p => simp

/-! ### Lemmas: query-component encoding round trip -/

theorem isUnreservedQ_ne {c : Char} (h : isUnreservedQ c = true) :
    c ≠ '%' ∧ c ≠ '+' ∧ c ≠ '&' ∧ c ≠ '=' := by
  refine ⟨?_, ?_, ?_, ?_⟩ <;> intro he <;> rw [he] at h <;> exact absurd h (by decide)

theorem upperHexDigit_isHex {n : Nat} (h : n < 16) : isHexChar (upperHexDigit n) = true := by
  revert h
  revert n
  decide

theorem hexVal_upperHexDigit {n : Nat} (h : n < 16) : hexVal (upperHexDigit n) = n := by
  revert h
  revert n
  decide

theorem upperHexDigit_ne (n : Nat) : upperHexDigit n ≠ '&' ∧ upperHexDigit n ≠ '=' := by
  by_cases h : n < 16
  · exact (by decide : ∀ m, m < 16 → upperHexDigit m ≠ '&' ∧ upperHexDigit m ≠ '=') n h
  · unfold upperHexDigit
    rw [List.getD_eq_default]
    · exact ⟨by decide, by decide⟩
    · simp [gs]
      omega

theorem mem_escapeChar_ne {c d : Char} (hd : d ∈ escapeChar c) : d ≠ '&' ∧ d ≠ '=' := by
  unfold escapeChar at hd
  by_cases h1 : isUnreservedQ c = true
  · rw [if_pos h1] at hd
    simp only [List.mem_singleton] at hd
    subst hd
    exact ⟨(isUnreservedQ_ne h1).2.2.1, (isUnreservedQ_ne h1).2.2.2⟩
  · rw [if_neg h1] at hd
    by_cases h2 : c = ' '
    · rw [if_pos h2] at hd
      simp only [List.mem_singleton] at hd
      subst hd
      exact ⟨by decide, by decide⟩
    · rw [if_neg h2] at hd
      simp only [List.mem_cons, List.mem_singleton, List.not_mem_nil, or_false] at hd
      rcases hd with h | h | h <;> subst h
      · exact ⟨by decide, by decide⟩
      · exact upperHexDigit_ne _
      · exact upperHexDigit_ne _

theorem queryUnescape_cons (c : Char) (rest : List Char) :
    queryUnescape (c :: rest) =
      if c = '%' then
        match rest with
        | a :: b :: rest2 =>
          if isHexChar a && isHexChar b then
            (queryUnescape rest2).map (fun t => Char.ofNat (16 * hexVal a + hexVal b) :: t)
          else none
        | _ => none
      else if c = '+' then (queryUnescape rest).map (fun t => ' ' :: t)
      else (queryUnescape rest).map (fun t => c :: t) := by
  rw [queryUnescape.eq_def]

theorem mem_queryEscape_ne {s : List Char} {d : Char} (hd : d ∈ queryEscape s) :
    d ≠ '&' ∧ d ≠ '=' := by
  unfold queryEscape at hd
  rw [List.mem_flatMap] at hd
  obtain ⟨c, _, hdc⟩ := hd
  exact mem_escapeChar_ne hdc

theorem queryUnescape_queryEscape (s : List Char) (h : ∀ c ∈ s, c.toNat < 256) :
    queryUnescape (queryEscape s) = some s := by
  induction s with
  | nil => rfl
  | cons c cs ih =>
    have hc : c.toNat < 256 := h c (List.mem_cons_self c cs)
    have ihh := ih (fun x hx => h x (List.mem_cons_of_mem _ hx))
    show queryUnescape (escapeChar c ++ queryEscape cs) = some (c :: cs)
    by_cases h1 : isUnreservedQ c = true
    · obtain ⟨hp, hpl, -, -⟩ := isUnreservedQ_ne h1
      have he : escapeChar c = [c] := by unfold escapeChar; rw [if_pos h1]
      rw [he]
      show queryUnescape (c :: queryEscape cs) = some (c :: cs)
      rw [queryUnescape_cons, if_neg hp, if_neg hpl, ihh]
      rfl
    · by_cases h2 : c = ' '
      · subst h2
        have he : escapeChar ' ' = ['+'] := by decide
        rw [he]
        show queryUnescape ('+' :: queryEscape cs) = some (' ' :: cs)
        rw [queryUnescape_cons, if_neg (by decide : ¬ ('+' = '%')), if_pos rfl, ihh]
        rfl
      · have hdiv : c.toNat / 16 % 16 = c.toNat / 16 :=
          Nat.mod_eq_of_lt (by omega)
        have he : escapeChar c
            = ['%', upperHexDigit (c.toNat / 16), upperHexDigit (c.toNat % 16)] := by
          unfold escapeChar; rw [if_neg h1, if_neg h2, hdiv]
        rw [he]
        show queryUnescape ('%' :: upperHexDigit (c.toNat / 16)
          :: upperHexDigit (c.toNat % 16) :: queryEscape cs) = some (c :: cs)
        have hlt1 : c.toNat / 16 < 16 := by omega
        have hlt2 : c.toNat % 16 < 16 := Nat.mod_lt _ (by norm_num)
        rw [queryUnescape_cons, if_pos rfl]
        dsimp only
        rw [upperHexDigit_isHex hlt1, upperHexDigit_isHex hlt2,
          if_pos (by decide : ((true && true) = true)), ihh,
          hexVal_upperHexDigit hlt1, hexVal_upperHexDigit hlt2]
        simp [Nat.div_add_mod, Char.ofNat_toNat]

theorem parsePair_piece (p : QueryParam) (hn : ∀ c ∈ p.name, c.toNat < 256)
    (hv : ∀ c ∈ p.value, c.toNat < 256) :
    parsePair (queryEscape p.name ++ '=' :: queryEscape p.value) = .ok p := by
  have heq : queryEscape p.name ++ '=' :: queryEscape p.value
      = List.intercalate ['='] [queryEscape p.name, queryEscape p.value] := by
    simp [List.intercalate, List.intersperse]
  have hsplit : (queryEscape p.name ++ '=' :: queryEscape p.value).splitOn '='
      = [queryEscape p.name, queryEscape p.value] := by
    rw [heq]
    apply List.splitOn_intercalate
    · intro l hl
      simp only [List.mem_cons, List.mem_singleton, List.not_mem_nil, or_false] at hl
      rcases hl with rfl | rfl
      · intro hm; exact (mem_queryEscape_ne hm).2 rfl
      · intro hm; exact (mem_queryEscape_ne hm).2 rfl
    · simp
  unfold parsePair
  rw [hsplit]
  dsimp only
  rw [queryUnescape_queryEscape _ hn, queryUnescape_queryEscape _ hv]

theorem parsePairs_pieces (s : List QueryParam)
    (h : ∀ p ∈ s, (∀ c ∈ p.name, c.toNat < 256) ∧ (∀ c ∈ p.value, c.toNat < 256)) :
    parsePairs (s.map (fun p => queryEscape p.name ++ '=' :: queryEscape p.value)) = .ok s := by
  induction s with
  | nil => rfl
  | cons p ps ih =>
    obtain ⟨hn, hv⟩ := h p (List.mem_cons_self p ps)
    simp only [List.map_cons, parsePairs, parsePair_piece p hn hv,
      ih (fun x hx => h x (List.mem_cons_of_mem _ hx))]

/-- Claim C8: for every sequence of query parameters whose names and values are
well-formed byte strings, parsing the serialization recovers the same ordered
sequence, including the empty sequence from the empty string. -/
theorem parse_serialize_roundtrip (s : List QueryParam)
    (h : ∀ p ∈ s, (∀ c ∈ p.name, c.toNat < 256) ∧ (∀ c ∈ p.value, c.toNat < 256)) :
    QueryParamsFromRawQueryStr (paramsStr s) = .ok s := by
  cases s with
  | nil => rfl
  | cons p ps =>
    have hnomem : ∀ l ∈ (p :: ps).map
        (fun p => queryEscape p.name ++ '=' :: queryEscape p.value), '&' ∉ l := by
      intro l hl hm
      rw [List.mem_map] at hl
      obtain ⟨r, hr, rfl⟩ := hl
      rcases List.mem_append.mp hm with hm | hm
      · exact (mem_queryEscape_ne hm).1 rfl
      · rcases List.mem_cons.mp hm with hm | hm
        · exact absurd hm (by decide)
        · exact (mem_queryEscape_ne hm).1 rfl
    have hsplit : (paramsStr (p :: ps)).splitOn '&'
        = (p :: ps).map (fun p => queryEscape p.name ++ '=' :: queryEscape p.value) := by
      unfold paramsStr
      exact List.splitOn_intercalate _ '&' hnomem (by simp)
    have hne : paramsStr (p :: ps) ≠ [] := by
      intro h0
      rw [h0] at hsplit
      have hempty : (([] : List Char)).splitOn '&' = [[]] := rfl
      rw [hempty] at hsplit
      simp at hsplit
    unfold QueryParamsFromRawQueryStr
    rw [if_neg hne, hsplit]
    exact parsePairs_pieces _ h

/-- Closed instance of the round-trip theorem, with the hypotheses discharged
at a concrete parameter sequence containing spaces and reserved characters. -/
theorem parse_serialize_roundtrip_witness :
    (∀ p ∈ [QueryParam.mk (gs "a b") (gs "x&y=50%"), QueryParam.mk (gs "") (gs "")],
      (∀ c ∈ p.name, c.toNat < 256) ∧ (∀ c ∈ p.value, c.toNat < 256)) ∧
    QueryParamsFromRawQueryStr
        (paramsStr [QueryParam.mk (gs "a b") (gs "x&y=50%"), QueryParam.mk (gs "") (gs "")])
      = .ok [QueryParam.mk (gs "a b") (gs "x&y=50%"), QueryParam.mk (gs "") (gs "")] :=
  ⟨by decide, parse_serialize_roundtrip _ (by decide)⟩

/-! ### Lemmas: `ProcessQuery` on the announce rule list -/

theorem processQuery_optionals (names : List (List Char)) (q : Values) :
    ProcessQuery (names.map QueryDef.optional) q
      = .ok ((names.filter (fun n => q.has n)).map (fun n => QueryParam.mk n (q.get n))) := by
  induction names with
  | nil => rfl
  | cons n ns ih =>
    cases hh : q.has n with
    | false => simp [ProcessQuery, QueryDef.process, hh, ih]
    | true => simp [ProcessQuery, QueryDef.process, hh, ih]

theorem mem_processQuery_mustHave {defs : List QueryDef} {q : Values}
    {params : List QueryParam} {n : List Char}
    (h : ProcessQuery defs q = .ok params) (hd : QueryDef.mustHave n ∈ defs) :
    QueryParam.mk n (q.get n) ∈ params := by
  induction defs generalizing params with
  | nil => cases hd
  | cons d ds ih =>
    rcases List.mem_cons.mp hd with rfl | hd2
    · unfold ProcessQuery at h
      unfold QueryDef.process at h
      dsimp only at h
      by_cases hh : q.has n = true
      · rw [if_pos hh] at h
        cases hrec : ProcessQuery ds q with
        | error e => rw [hrec] at h; dsimp only at h; cases h
        | ok ps => rw [hrec] at h; dsimp only at h; cases h; exact List.mem_cons_self _ _
      · rw [if_neg hh] at h
        dsimp only at h
        cases h
    · unfold ProcessQuery at h
      cases hp : d.process q with
      | error e => rw [hp] at h; dsimp only at h; cases h
      | ok po =>
        rw [hp] at h
        cases po with
        | none => dsimp only at h; exact ih h hd2
        | some p0 =>
          dsimp only at h
          cases hrec : ProcessQuery ds q with
          | error e => rw [hrec] at h; dsimp only at h; cases h
          | ok ps =>
            rw [hrec] at h
            dsimp only at h
            cases h
            exact List.mem_cons_of_mem _ (ih hrec hd2)

theorem processQuery_announce (q : Values)
    (h1 : q.has (gs "info_hash") = true) (h2 : q.has (gs "peer_id") = true)
    (h3 : q.has (gs "port") = true) (h4 : q.has (gs "uploaded") = true)
    (h5 : q.has (gs "downloaded") = true) (h6 : q.has (gs "left") = true)
    (h7 : q.has (gs "numwant") = true) (h8 : q.has (gs "key") = true)
    (h9 : q.has (gs "compact") = true) (h10 : q.has (gs "supportcrypto") = true) :
    ProcessQuery announceQueryDefs q = .ok (
      [QueryParam.mk (gs "info_hash") (q.get (gs "info_hash")),
       QueryParam.mk (gs "peer_id") (q.get (gs "peer_id")),
       QueryParam.mk (gs "port") (q.get (gs "port")),
       QueryParam.mk (gs "uploaded") (q.get (gs "uploaded")),
       QueryParam.mk (gs "downloaded") (q.get (gs "downloaded")),
       QueryParam.mk (gs "left") (q.get (gs "left")),
       QueryParam.mk (gs "numwant") (q.get (gs "numwant")),
       QueryParam.mk (gs "key") (q.get (gs "key")),
       QueryParam.mk (gs "compact") (q.get (gs "compact")),
       QueryParam.mk (gs "supportcrypto") (q.get (gs "supportcrypto"))]
      ++ (([gs "requirecrypto", gs "event", gs "corrupt", gs "trackerid"].filter
            (fun n => q.has n)).map (fun n => QueryParam.mk n (q.get n)))) := by
  unfold announceQueryDefs
  cases hA : q.has (gs "requirecrypto") <;> cases hB : q.has (gs "event") <;>
    cases hC : q.has (gs "corrupt") <;> cases hD : q.has (gs "trackerid") <;>
    simp [ProcessQuery, QueryDef.process, h1, h2, h3, h4, h5, h6, h7, h8, h9, h10,
      hA, hB, hC, hD]

/-! ### Lemmas: the announce rewriter -/

theorem modifyQuery_valid_eq (fresh : PerTorrent) (st : TrState) (u : URL) (q : Values)
    (hn : q.has (gs "numwant") = false)
    (hc : q.get (gs "compact") = gs "1")
    (hs : q.get (gs "supportcrypto") = gs "1")
    (hi : ¬ q.get (gs "info_hash") = []) :
    modifyQuery fresh st u q =
      (let ptq := privateTrackerQueryOf u.rawQuery
       let infoHash := q.get (gs "info_hash")
       let id := perTrackerTorrentID u infoHash
       let lr := loadOrStore st.torrents id fresh
       let ts2 := if q.get (gs "event") = gs "stopped" then deleteTorrent lr.2.2 id else lr.2.2
       let sch2 := if q.get (gs "event") = gs "stopped" then schedDel st.scheduler id
         else st.scheduler
       let sch3 := if lr.2.1 then sch2 else scheduleScrape sch2 id (newScrapeTask u infoHash ptq)
       match ProcessQuery announceQueryDefs (finalValues q lr.1) with
       | .error e => (⟨ts2, sch3⟩, .error e)
       | .ok params => (⟨ts2, sch3⟩, .ok { u with rawQuery := assembleRaw ptq params })) := by
  have e1 : (q.set (gs "numwant") (gs "80")).get (gs "info_hash") = q.get (gs "info_hash") :=
    Values.get_set_ne q _ (by decide)
  have e2 : (q.set (gs "numwant") (gs "80")).get (gs "event") = q.get (gs "event") :=
    Values.get_set_ne q _ (by decide)
  unfold modifyQuery finalValues
  rw [if_neg (by rw [hn]; exact Bool.false_ne_true),
      if_neg (fun hcon => hcon hc),
      if_neg (fun hcon => hcon hs)]
  simp only [e1, e2]
  rw [if_neg hi]

theorem finalValues_has_ne (q : Values) (pt : PerTorrent) {n : List Char}
    (h1 : n ≠ gs "numwant") (h2 : n ≠ gs "peer_id") (h3 : n ≠ gs "key") :
    (finalValues q pt).has n = q.has n := by
  unfold finalValues
  rw [Values.has_set_ne _ _ h3, Values.has_set_ne _ _ h2, Values.has_set_ne _ _ h1]

theorem finalValues_get_ne (q : Values) (pt : PerTorrent) {n : List Char}
    (h1 : n ≠ gs "numwant") (h2 : n ≠ gs "peer_id") (h3 : n ≠ gs "key") :
    (finalValues q pt).get n = q.get n := by
  unfold finalValues
  rw [Values.get_set_ne _ _ h3, Values.get_set_ne _ _ h2, Values.get_set_ne _ _ h1]

theorem finalValues_get_numwant (q : Values) (pt : PerTorrent) :
    (finalValues q pt).get (gs "numwant") = gs "80" := by
  unfold finalValues
  rw [Values.get_set_ne _ _ (by decide), Values.get_set_ne _ _ (by decide),
    Values.get_set_self]

theorem finalValues_has_numwant (q : Values) (pt : PerTorrent) :
    (finalValues q pt).has (gs "numwant") = true := by
  unfold finalValues
  rw [Values.has_set_ne _ _ (by decide), Values.has_set_ne _ _ (by decide)]
  exact Values.has_set_self _ _ _

theorem finalValues_get_peer (q : Values) (pt : PerTorrent) :
    (finalValues q pt).get (gs "peer_id") = pt.peerID := by
  unfold finalValues
  rw [Values.get_set_ne _ _ (by decide), Values.get_set_self]

theorem finalValues_has_peer (q : Values) (pt : PerTorrent) :
    (finalValues q pt).has (gs "peer_id") = true := by
  unfold finalValues
  rw [Values.has_set_ne _ _ (by decide)]
  exact Values.has_set_self _ _ _

theorem finalValues_get_key (q : Values) (pt : PerTorrent) :
    (finalValues q pt).get (gs "key") = pt.key := Values.get_set_self _ _ _

theorem finalValues_has_key (q : Values) (pt : PerTorrent) :
    (finalValues q pt).has (gs "key") = true := Values.has_set_self _ _ _

/-- Claim C3: on an announce input that passes validation and contains all
required parameters, the rewritten non-prefix query parameter names, in order,
are exactly the ten required names followed by whichever of requirecrypto,
event, corrupt, trackerid were present, in that declared order, and no others. -/
theorem announce_output_names (fresh : PerTorrent) (st : TrState) (u : URL) (q : Values)
    (hn : q.has (gs "numwant") = false)
    (hc : q.get (gs "compact") = gs "1")
    (hs : q.get (gs "supportcrypto") = gs "1")
    (hi : ¬ q.get (gs "info_hash") = [])
    (hport : q.has (gs "port") = true) (hup : q.has (gs "uploaded") = true)
    (hdown : q.has (gs "downloaded") = true) (hleft : q.has (gs "left") = true) :
    ∃ params,
      (modifyQuery fresh st u q).2
        = .ok { u with rawQuery := assembleRaw (privateTrackerQueryOf u.rawQuery) params } ∧
      params.map QueryParam.name
        = [gs "info_hash", gs "peer_id", gs "port", gs "uploaded", gs "downloaded",
           gs "left", gs "numwant", gs "key", gs "compact", gs "supportcrypto"]
          ++ ([gs "requirecrypto", gs "event", gs "corrupt", gs "trackerid"].filter
              (fun n => q.has n)) := by
  rw [modifyQuery_valid_eq fresh st u q hn hc hs hi]
  dsimp only
  set got := (loadOrStore st.torrents (perTrackerTorrentID u (q.get (gs "info_hash"))) fresh).1
  have H1 : (finalValues q got).has (gs "info_hash") = true := by
    rw [finalValues_has_ne q got (by decide) (by decide) (by decide)]
    exact Values.has_of_get_ne q _ hi
  have H3 : (finalValues q got).has (gs "port") = true := by
    rw [finalValues_has_ne q got (by decide) (by decide) (by decide)]; exact hport
  have H4 : (finalValues q got).has (gs "uploaded") = true := by
    rw [finalValues_has_ne q got (by decide) (by decide) (by decide)]; exact hup
  have H5 : (finalValues q got).has (gs "downloaded") = true := by
    rw [finalValues_has_ne q got (by decide) (by decide) (by decide)]; exact hdown
  have H6 : (finalValues q got).has (gs "left") = true := by
    rw [finalValues_has_ne q got (by decide) (by decide) (by decide)]; exact hleft
  have H9 : (finalValues q got).has (gs "compact") = true := by
    rw [finalValues_has_ne q got (by decide) (by decide) (by decide)]
    exact Values.has_of_get_ne q _ (by rw [hc]; decide)
  have H10 : (finalValues q got).has (gs "supportcrypto") = true := by
    rw [finalValues_has_ne q got (by decide) (by decide) (by decide)]
    exact Values.has_of_get_ne q _ (by rw [hs]; decide)
  have hfq := processQuery_announce (finalValues q got) H1 (finalValues_has_peer q got)
    H3 H4 H5 H6 (finalValues_has_numwant q got) (finalValues_has_key q got) H9 H10
  rw [hfq]
  dsimp only
  refine ⟨_, rfl, ?_⟩
  have hA : (finalValues q got).has (gs "requirecrypto") = q.has (gs "requirecrypto") :=
    finalValues_has_ne q got (by decide) (by decide) (by decide)
  have hB : (finalValues q got).has (gs "event") = q.has (gs "event") :=
    finalValues_has_ne q got (by decide) (by decide) (by decide)
  have hC : (finalValues q got).has (gs "corrupt") = q.has (gs "corrupt") :=
    finalValues_has_ne q got (by decide) (by decide) (by decide)
  have hD : (finalValues q got).has (gs "trackerid") = q.has (gs "trackerid") :=
    finalValues_has_ne q got (by decide) (by decide) (by decide)
  simp [List.filter_cons, hA, hB, hC, hD]
  cases q.has (gs "requirecrypto") <;> cases q.has (gs "event") <;>
    cases q.has (gs "corrupt") <;> cases q.has (gs "trackerid") <;> simp

/-- Closed instance of the parameter-name theorem on a concrete valid announce. -/
theorem announce_output_names_witness :
    ∃ params,
      (modifyQuery exFresh initialState exStartURL exStartQuery).2
        = .ok { exStartURL with
            rawQuery := assembleRaw (privateTrackerQueryOf exStartURL.rawQuery) params } ∧
      params.map QueryParam.name
        = [gs "info_hash", gs "peer_id", gs "port", gs "uploaded", gs "downloaded",
           gs "left", gs "numwant", gs "key", gs "compact", gs "supportcrypto"]
          ++ ([gs "requirecrypto", gs "event", gs "corrupt", gs "trackerid"].filter
              (fun n => exStartQuery.has n)) :=
  announce_output_names exFresh initialState exStartURL exStartQuery (by decide) (by decide)
    (by decide) (by decide) (by decide) (by decide) (by decide) (by decide)

theorem firstSubstrIdx_some_spec (pat s : List Char) (i : Nat)
    (h : firstSubstrIdx pat s = some i) :
    pat.isPrefixOf (s.drop i) = true ∧
      ∀ j, j < i → ¬ pat.isPrefixOf (s.drop j) = true := by
  induction s generalizing i with
  | nil =>
    unfold firstSubstrIdx at h
    by_cases hp : pat = []
    · rw [if_pos hp] at h
      cases h
      subst hp
      exact ⟨rfl, fun j hj => absurd hj (Nat.not_lt_zero j)⟩
    · rw [if_neg hp] at h
      cases h
  | cons c rest ih =>
    unfold firstSubstrIdx at h
    by_cases hp : pat.isPrefixOf (c :: rest) = true
    · rw [if_pos hp] at h
      cases h
      exact ⟨hp, fun j hj => absurd hj (Nat.not_lt_zero j)⟩
    · rw [if_neg hp] at h
      cases hrec : firstSubstrIdx pat rest with
      | none => rw [hrec] at h; cases h
      | some i0 =>
        rw [hrec] at h
        cases h
        obtain ⟨hpre, hmin⟩ := ih i0 hrec
        refine ⟨hpre, ?_⟩
        intro j hj
        cases j with
        | zero => exact hp
        | succ j0 => exact hmin j0 (Nat.lt_of_succ_lt_succ hj)

theorem ok_implies_valid (fresh : PerTorrent) (st : TrState) (u : URL) (q : Values)
    (u' : URL) (h : (modifyQuery fresh st u q).2 = .ok u') :
    q.has (gs "numwant") = false ∧ q.get (gs "compact") = gs "1" ∧
      q.get (gs "supportcrypto") = gs "1" ∧ ¬ q.get (gs "info_hash") = [] := by
  by_cases hn : q.has (gs "numwant") = true
  · have heq : modifyQuery fresh st u q
        = (st, .error (gs "anacrolix/torrent provides numwant")) := by
      unfold modifyQuery; dsimp only; rw [if_pos hn]
    rw [heq] at h; cases h
  · have hn' : q.has (gs "numwant") = false := by
      revert hn; cases q.has (gs "numwant") <;> simp
    by_cases hc : q.get (gs "compact") = gs "1"
    · by_cases hs : q.get (gs "supportcrypto") = gs "1"
      · by_cases hi : q.get (gs "info_hash") = []
        · have heq : modifyQuery fresh st u q = (st, .error (gs "missing info_hash")) := by
            unfold modifyQuery; dsimp only
            rw [if_neg hn, if_neg (fun k => k hc), if_neg (fun k => k hs)]
            rw [Values.get_set_ne q _ (by decide), if_pos hi]
          rw [heq] at h; cases h
        · exact ⟨hn', hc, hs, hi⟩
      · have heq : modifyQuery fresh st u q
            = (st, .error (gs "anacrolix/torrent provides supportcrypto!=1")) := by
          unfold modifyQuery; dsimp only
          rw [if_neg hn, if_neg (fun k => k hc), if_pos hs]
        rw [heq] at h; cases h
    · have heq : modifyQuery fresh st u q
          = (st, .error (gs "anacrolix/torrent provides compact!=1")) := by
        unfold modifyQuery; dsimp only
        rw [if_neg hn, if_pos hc]
      rw [heq] at h; cases h

/-- Claim C4: the preserved prefix is the substring of the raw query strictly
before the first occurrence of the literal `&compact` (empty when the marker
is absent), and the rewritten raw query is `prefix & serialized` when the
prefix is non-empty and `serialized` alone otherwise, the prefix byte for byte. -/
theorem private_query_preserved (fresh : PerTorrent) (st : TrState) (u : URL) (q : Values)
    (u' : URL) (h : (modifyQuery fresh st u q).2 = .ok u') :
    (∀ i, firstSubstrIdx (gs "&compact") u.rawQuery = some i →
      (gs "&compact").isPrefixOf (u.rawQuery.drop i) = true ∧
      ∀ j, j < i → ¬ (gs "&compact").isPrefixOf (u.rawQuery.drop j) = true) ∧
    ∃ params,
      u'.rawQuery = (match firstSubstrIdx (gs "&compact") u.rawQuery with
        | some i => if u.rawQuery.take i ≠ [] then u.rawQuery.take i ++ '&' :: paramsStr params
            else paramsStr params
        | none => paramsStr params) := by
  obtain ⟨hn, hc, hs, hi⟩ := ok_implies_valid fresh st u q u' h
  refine ⟨fun i hidx => firstSubstrIdx_some_spec _ _ i hidx, ?_⟩
  rw [modifyQuery_valid_eq fresh st u q hn hc hs hi] at h
  dsimp only at h
  cases hp : ProcessQuery announceQueryDefs
      (finalValues q (loadOrStore st.torrents
        (perTrackerTorrentID u (q.get (gs "info_hash"))) fresh).1) with
  | error e => rw [hp] at h; cases h
  | ok params =>
    rw [hp] at h
    cases h
    refine ⟨params, ?_⟩
    unfold assembleRaw privateTrackerQueryOf
    cases hfi : firstSubstrIdx (gs "&compact") u.rawQuery with
    | none => simp
    | some i => rfl

/-- Claim C1 evaluated at the failing input: a fresh rewriter given a valid
first announce with `event=stopped` succeeds, yet afterwards the identity
store has no entry for the key while the scheduler holds a scrape task for
that very key, so a task exists without an identity. -/
theorem stopped_first_announce_leaves_task :
    ((modifyQuery exFresh initialState exStopURL exStopQuery).2).isOk = true ∧
    lookupTorrent (modifyQuery exFresh initialState exStopURL exStopQuery).1.torrents
      exId = none ∧
    exId ∈ (modifyQuery exFresh initialState exStopURL exStopQuery).1.scheduler := by
  refine ⟨by decide, by decide, by decide⟩

/-- Counterexample to claim C2 as stated: an announce that passes validation
but lacks the required `port` parameter makes `modifyQuery` return an error,
yet a fresh identity has been stored and a scrape task scheduled by the call. -/
theorem missing_required_mutates_state :
    (modifyQuery exFresh initialState exNoPortURL exNoPortQuery).2
      = .error (gs "query port not found") ∧
    lookupTorrent (modifyQuery exFresh initialState exNoPortURL exNoPortQuery).1.torrents
      exId = some exFresh ∧
    exId ∈ (modifyQuery exFresh initialState exNoPortURL exNoPortQuery).1.scheduler := by
  refine ⟨by rfl, by decide, by decide⟩

theorem modifyQuery_invalid_state (fresh : PerTorrent) (st : TrState) (u : URL)
    (q : Values)
    (h : q.has (gs "numwant") = true ∨ ¬ q.get (gs "compact") = gs "1"
      ∨ ¬ q.get (gs "supportcrypto") = gs "1" ∨ q.get (gs "info_hash") = []) :
    (modifyQuery fresh st u q).1 = st ∧ ∃ e, (modifyQuery fresh st u q).2 = .error e := by
  by_cases hn : q.has (gs "numwant") = true
  · have heq : modifyQuery fresh st u q
        = (st, .error (gs "anacrolix/torrent provides numwant")) := by
      unfold modifyQuery; dsimp only; rw [if_pos hn]
    rw [heq]
    exact ⟨rfl, _, rfl⟩
  · by_cases hc : q.get (gs "compact") = gs "1"
    · by_cases hs : q.get (gs "supportcrypto") = gs "1"
      · have hi : q.get (gs "info_hash") = [] := by
          rcases h with h | h | h | h
          · exact absurd h hn
          · exact absurd hc h
          · exact absurd hs h
          · exact h
        have heq : modifyQuery fresh st u q = (st, .error (gs "missing info_hash")) := by
          unfold modifyQuery; dsimp only
          rw [if_neg hn, if_neg (fun k => k hc), if_neg (fun k => k hs)]
          rw [Values.get_set_ne q _ (by decide), if_pos hi]
        rw [heq]
        exact ⟨rfl, _, rfl⟩
      · have heq : modifyQuery fresh st u q
            = (st, .error (gs "anacrolix/torrent provides supportcrypto!=1")) := by
          unfold modifyQuery; dsimp only
          rw [if_neg hn, if_neg (fun k => k hc), if_pos hs]
        rw [heq]
        exact ⟨rfl, _, rfl⟩
    · have heq : modifyQuery fresh st u q
          = (st, .error (gs "anacrolix/torrent provides compact!=1")) := by
        unfold modifyQuery; dsimp only
        rw [if_neg hn, if_pos hc]
      rw [heq]
      exact ⟨rfl, _, rfl⟩

/-- Claim C2 (amended): for announce requests rejected by the upfront
validation - `numwant` already present, `compact` not `1`, `supportcrypto`
not `1`, or an absent or empty `info_hash` - the rewriter state is returned
unchanged: no identity is stored and no scrape task is scheduled.  A missing
required parameter detected later, during query rewrite, also yields an error
but leaves in place the identity and task inserted earlier in the call. -/
theorem validation_error_leaves_state (fresh : PerTorrent) (st : TrState) (u : URL)
    (q : Values)
    (h : q.has (gs "numwant") = true ∨ ¬ q.get (gs "compact") = gs "1"
      ∨ ¬ q.get (gs "supportcrypto") = gs "1" ∨ q.get (gs "info_hash") = []) :
    (modifyQuery fresh st u q).1 = st ∧ ∃ e, (modifyQuery fresh st u q).2 = .error e :=
  modifyQuery_invalid_state fresh st u q h

/-- Closed instance of the amended C2 theorem at a concrete `compact=0` input. -/
theorem validation_error_leaves_state_witness :
    (modifyQuery exFresh initialState exBadCompactURL exBadCompactQuery).1 = initialState ∧
    ∃ e, (modifyQuery exFresh initialState exBadCompactURL exBadCompactQuery).2
      = .error e :=
  validation_error_leaves_state exFresh initialState exBadCompactURL exBadCompactQuery
    (by decide)

/-- Closed instance of the prefix-preservation theorem on a concrete announce
carrying the private prefix `auth=1`. -/
theorem private_query_preserved_witness :
    (∀ i, firstSubstrIdx (gs "&compact") exAuthURL.rawQuery = some i →
      (gs "&compact").isPrefixOf (exAuthURL.rawQuery.drop i) = true ∧
      ∀ j, j < i → ¬ (gs "&compact").isPrefixOf (exAuthURL.rawQuery.drop j) = true) ∧
    ∃ params,
      (URL.mk (gs "http") (gs "t") (gs "/tr/announce")
        (gs "auth=1&info_hash=abc&peer_id=-TR4060-aaaaaaaaaaaa&port=1&uploaded=0&downloaded=0&left=5&numwant=80&key=0123ABCD&compact=1&supportcrypto=1")).rawQuery
        = (match firstSubstrIdx (gs "&compact") exAuthURL.rawQuery with
          | some i => if exAuthURL.rawQuery.take i ≠ []
              then exAuthURL.rawQuery.take i ++ '&' :: paramsStr params
              else paramsStr params
          | none => paramsStr params) :=
  private_query_preserved exFresh initialState exAuthURL exAuthQuery
    (URL.mk (gs "http") (gs "t") (gs "/tr/announce")
      (gs "auth=1&info_hash=abc&peer_id=-TR4060-aaaaaaaaaaaa&port=1&uploaded=0&downloaded=0&left=5&numwant=80&key=0123ABCD&compact=1&supportcrypto=1"))
    (by rfl)

theorem lookupTorrent_append (ts : List (List Char × PerTorrent)) (id : List Char)
    (f : PerTorrent) (h : lookupTorrent ts id = none) :
    lookupTorrent (ts ++ [(id, f)]) id = some f := by
  unfold lookupTorrent at h ⊢
  rw [List.find?_append]
  cases hf : ts.find? (fun p => decide (p.1 = id)) with
  | some p => rw [hf] at h; simp at h
  | none => simp [List.find?]

/-- Claim C10: a valid first announce whose URL path does not end in the
literal `/announce` still succeeds and stores the fresh identity for its key,
but the scrape URL builder declines, task construction yields nothing, and
registration is a no-op, so the scheduler is left exactly unchanged. -/
theorem no_scrape_task_for_non_announce_path (fresh : PerTorrent) (st : TrState)
    (u : URL) (q : Values)
    (hpath : ¬ (gs "/announce").isSuffixOf u.path = true)
    (hn : q.has (gs "numwant") = false)
    (hc : q.get (gs "compact") = gs "1")
    (hs : q.get (gs "supportcrypto") = gs "1")
    (hi : ¬ q.get (gs "info_hash") = [])
    (hport : q.has (gs "port") = true) (hup : q.has (gs "uploaded") = true)
    (hdown : q.has (gs "downloaded") = true) (hleft : q.has (gs "left") = true)
    (hstop : ¬ q.get (gs "event") = gs "stopped")
    (hnew : lookupTorrent st.torrents (perTrackerTorrentID u (q.get (gs "info_hash"))) = none) :
    (∃ u', (modifyQuery fresh st u q).2 = .ok u') ∧
    lookupTorrent (modifyQuery fresh st u q).1.torrents
      (perTrackerTorrentID u (q.get (gs "info_hash"))) = some fresh ∧
    (modifyQuery fresh st u q).1.scheduler = st.scheduler := by
  rw [modifyQuery_valid_eq fresh st u q hn hc hs hi]
  dsimp only
  have hls : loadOrStore st.torrents (perTrackerTorrentID u (q.get (gs "info_hash"))) fresh
      = (fresh, false, st.torrents ++ [(perTrackerTorrentID u (q.get (gs "info_hash")), fresh)]) := by
    unfold loadOrStore
    rw [hnew]
  rw [hls]
  dsimp only
  rw [if_neg hstop, if_neg hstop]
  have htask : newScrapeTask u (q.get (gs "info_hash")) (privateTrackerQueryOf u.rawQuery)
      = none := by
    unfold newScrapeTask scrapeURL
    rw [if_pos hpath]
  rw [htask]
  have H1 : (finalValues q fresh).has (gs "info_hash") = true := by
    rw [finalValues_has_ne q fresh (by decide) (by decide) (by decide)]
    exact Values.has_of_get_ne q _ hi
  have H3 : (finalValues q fresh).has (gs "port") = true := by
    rw [finalValues_has_ne q fresh (by decide) (by decide) (by decide)]; exact hport
  have H4 : (finalValues q fresh).has (gs "uploaded") = true := by
    rw [finalValues_has_ne q fresh (by decide) (by decide) (by decide)]; exact hup
  have H5 : (finalValues q fresh).has (gs "downloaded") = true := by
    rw [finalValues_has_ne q fresh (by decide) (by decide) (by decide)]; exact hdown
  have H6 : (finalValues q fresh).has (gs "left") = true := by
    rw [finalValues_has_ne q fresh (by decide) (by decide) (by decide)]; exact hleft
  have H9 : (finalValues q fresh).has (gs "compact") = true := by
    rw [finalValues_has_ne q fresh (by decide) (by decide) (by decide)]
    exact Values.has_of_get_ne q _ (by rw [hc]; decide)
  have H10 : (finalValues q fresh).has (gs "supportcrypto") = true := by
    rw [finalValues_has_ne q fresh (by decide) (by decide) (by decide)]
    exact Values.has_of_get_ne q _ (by rw [hs]; decide)
  have hfq := processQuery_announce (finalValues q fresh) H1 (finalValues_has_peer q fresh)
    H3 H4 H5 H6 (finalValues_has_numwant q fresh) (finalValues_has_key q fresh) H9 H10
  rw [hfq]
  dsimp only [scheduleScrape]
  refine ⟨⟨_, rfl⟩, ?_, rfl⟩
  exact lookupTorrent_append st.torrents _ fresh hnew

/-- Closed instance of the C10 theorem on the concrete path `/tr/ann`. -/
theorem no_scrape_task_for_non_announce_path_witness :
    (∃ u', (modifyQuery exFresh initialState exNoScrapeURL exStartQuery).2 = .ok u') ∧
    lookupTorrent (modifyQuery exFresh initialState exNoScrapeURL exStartQuery).1.torrents
      (perTrackerTorrentID exNoScrapeURL (exStartQuery.get (gs "info_hash"))) = some exFresh ∧
    (modifyQuery exFresh initialState exNoScrapeURL exStartQuery).1.scheduler
      = initialState.scheduler :=
  no_scrape_task_for_non_announce_path exFresh initialState exNoScrapeURL exStartQuery
    (by decide) (by decide) (by decide) (by decide) (by decide) (by decide) (by decide)
    (by decide) (by decide) (by decide) (by decide)

theorem except_isOk_exists {ε α : Type} (e : Except ε α) (h : e.isOk = true) :
    ∃ a, e = .ok a := by
  cases e with
  | error e0 => simp [Except.isOk, Except.toBool] at h
  | ok a => exact ⟨a, rfl⟩

theorem params_mem_identity (q : Values) (pt : PerTorrent) (params : List QueryParam)
    (hp : ProcessQuery announceQueryDefs (finalValues q pt) = .ok params) :
    QueryParam.mk (gs "peer_id") pt.peerID ∈ params ∧
    QueryParam.mk (gs "key") pt.key ∈ params := by
  constructor
  · have hm := mem_processQuery_mustHave hp
      (show QueryDef.mustHave (gs "peer_id") ∈ announceQueryDefs by decide)
    rwa [finalValues_get_peer] at hm
  · have hm := mem_processQuery_mustHave hp
      (show QueryDef.mustHave (gs "key") ∈ announceQueryDefs by decide)
    rwa [finalValues_get_key] at hm

theorem modifyQuery_step_mem (fresh : PerTorrent) (st : TrState) (u : URL) (q : Values)
    (pt : PerTorrent) (id : List Char)
    (hid : perTrackerTorrentID u (q.get (gs "info_hash")) = id)
    (hmem : lookupTorrent st.torrents id = some pt)
    (hstop : ¬ q.get (gs "event") = gs "stopped") :
    lookupTorrent (modifyQuery fresh st u q).1.torrents id = some pt ∧
    ∀ u', (modifyQuery fresh st u q).2 = .ok u' →
      ∃ params, ProcessQuery announceQueryDefs (finalValues q pt) = .ok params ∧
        u'.rawQuery = assembleRaw (privateTrackerQueryOf u.rawQuery) params := by
  by_cases hval : q.has (gs "numwant") = true ∨ ¬ q.get (gs "compact") = gs "1"
      ∨ ¬ q.get (gs "supportcrypto") = gs "1" ∨ q.get (gs "info_hash") = []
  · obtain ⟨hst, e, herr⟩ := modifyQuery_invalid_state fresh st u q hval
    rw [hst]
    refine ⟨hmem, ?_⟩
    intro u' hok
    rw [herr] at hok
    cases hok
  · have hn : q.has (gs "numwant") = false := by
      cases hh : q.has (gs "numwant")
      · rfl
      · exact absurd (Or.inl hh) hval
    have hc : q.get (gs "compact") = gs "1" := by
      by_cases hh : q.get (gs "compact") = gs "1"
      · exact hh
      · exact absurd (Or.inr (Or.inl hh)) hval
    have hs : q.get (gs "supportcrypto") = gs "1" := by
      by_cases hh : q.get (gs "supportcrypto") = gs "1"
      · exact hh
      · exact absurd (Or.inr (Or.inr (Or.inl hh))) hval
    have hi : ¬ q.get (gs "info_hash") = [] :=
      fun hh => hval (Or.inr (Or.inr (Or.inr hh)))
    rw [modifyQuery_valid_eq fresh st u q hn hc hs hi]
    dsimp only
    rw [hid]
    have hls : loadOrStore st.torrents id fresh = (pt, true, st.torrents) := by
      unfold loadOrStore
      rw [hmem]
    rw [hls]
    dsimp only
    rw [if_neg hstop, if_neg hstop]
    rw [if_pos rfl]
    cases hp : ProcessQuery announceQueryDefs (finalValues q pt) with
    | error e =>
      dsimp only
      refine ⟨hmem, ?_⟩
      intro u' hok
      cases hok
    | ok params =>
      dsimp only
      refine ⟨hmem, ?_⟩
      intro u' hok
      cases hok
      exact ⟨params, rfl, rfl⟩

theorem modifyQuery_step_new (fresh : PerTorrent) (st : TrState) (u : URL) (q : Values)
    (id : List Char)
    (hid : perTrackerTorrentID u (q.get (gs "info_hash")) = id)
    (hnew : lookupTorrent st.torrents id = none)
    (hstop : ¬ q.get (gs "event") = gs "stopped")
    (u' : URL) (hok : (modifyQuery fresh st u q).2 = .ok u') :
    lookupTorrent (modifyQuery fresh st u q).1.torrents id = some fresh ∧
    ∃ params, ProcessQuery announceQueryDefs (finalValues q fresh) = .ok params ∧
      u'.rawQuery = assembleRaw (privateTrackerQueryOf u.rawQuery) params := by
  obtain ⟨hn, hc, hs, hi⟩ := ok_implies_valid fresh st u q u' hok
  rw [modifyQuery_valid_eq fresh st u q hn hc hs hi] at hok ⊢
  dsimp only at hok ⊢
  rw [hid] at hok ⊢
  have hls : loadOrStore st.torrents id fresh
      = (fresh, false, st.torrents ++ [(id, fresh)]) := by
    unfold loadOrStore
    rw [hnew]
  rw [hls] at hok ⊢
  dsimp only at hok ⊢
  rw [if_neg hstop] at hok ⊢
  rw [if_neg hstop] at hok ⊢
  cases hp : ProcessQuery announceQueryDefs (finalValues q fresh) with
  | error e =>
    rw [hp] at hok
    dsimp only at hok
    cases hok
  | ok params =>
    rw [hp] at hok
    dsimp only at hok ⊢
    cases hok
    exact ⟨lookupTorrent_append st.torrents id fresh hnew, params, rfl, rfl⟩

theorem runAnnounces_reuse (pt : PerTorrent) (id : List Char) (calls : List AnnounceCall)
    (st : TrState)
    (hmem : lookupTorrent st.torrents id = some pt)
    (hkey : ∀ c ∈ calls, perTrackerTorrentID c.url (c.query.get (gs "info_hash")) = id)
    (hstop : ∀ c ∈ calls, ¬ c.query.get (gs "event") = gs "stopped")
    (hok : ∀ r ∈ runAnnounces st calls, (r.2).isOk = true) :
    List.Forall₂ (fun c r => ∃ u' params, r.2 = .ok u' ∧
        ProcessQuery announceQueryDefs (finalValues c.query pt) = .ok params ∧
        u'.rawQuery = assembleRaw (privateTrackerQueryOf c.url.rawQuery) params)
      calls (runAnnounces st calls) := by
  induction calls generalizing st with
  | nil => exact List.Forall₂.nil
  | cons c cs ih =>
    have hrun : runAnnounces st (c :: cs)
        = modifyQuery c.fresh st c.url c.query
          :: runAnnounces (modifyQuery c.fresh st c.url c.query).1 cs := rfl
    rw [hrun] at hok ⊢
    obtain ⟨u', hu'⟩ := except_isOk_exists _ (hok _ (List.mem_cons_self _ _))
    obtain ⟨hmem', hout⟩ := modifyQuery_step_mem c.fresh st c.url c.query pt id
      (hkey c (List.mem_cons_self _ _)) hmem (hstop c (List.mem_cons_self _ _))
    obtain ⟨params, hp, hraw⟩ := hout u' hu'
    exact List.Forall₂.cons ⟨u', params, hu', hp, hraw⟩
      (ih _ hmem' (fun x hx => hkey x (List.mem_cons_of_mem _ hx))
        (fun x hx => hstop x (List.mem_cons_of_mem _ hx))
        (fun r hr => hok r (List.mem_cons_of_mem _ hr)))

/-- Claim C5: along a sequence of successful announces that share the same
announce base URL and info_hash, with no `stopped` event in between and the
key initially absent, every announce emits the identity minted at the first
announce: its output query is the rewrite computed with that identity, and
carries that identity's peer_id and key verbatim. -/
theorem identity_reused_across_announces (st0 : TrState) (c1 : AnnounceCall)
    (rest : List AnnounceCall)
    (hkey : ∀ c ∈ c1 :: rest, announceURL c.url = announceURL c1.url ∧
      c.query.get (gs "info_hash") = c1.query.get (gs "info_hash"))
    (hstop : ∀ c ∈ c1 :: rest, ¬ c.query.get (gs "event") = gs "stopped")
    (hfirst : lookupTorrent st0.torrents
      (perTrackerTorrentID c1.url (c1.query.get (gs "info_hash"))) = none)
    (hok : ∀ r ∈ runAnnounces st0 (c1 :: rest), (r.2).isOk = true) :
    List.Forall₂ (fun c r => ∃ u' params, r.2 = .ok u' ∧
        ProcessQuery announceQueryDefs (finalValues c.query c1.fresh) = .ok params ∧
        u'.rawQuery = assembleRaw (privateTrackerQueryOf c.url.rawQuery) params ∧
        QueryParam.mk (gs "peer_id") c1.fresh.peerID ∈ params ∧
        QueryParam.mk (gs "key") c1.fresh.key ∈ params)
      (c1 :: rest) (runAnnounces st0 (c1 :: rest)) := by
  have hkey' : ∀ c ∈ c1 :: rest, perTrackerTorrentID c.url (c.query.get (gs "info_hash"))
      = perTrackerTorrentID c1.url (c1.query.get (gs "info_hash")) := by
    intro c hc
    obtain ⟨h1, h2⟩ := hkey c hc
    unfold perTrackerTorrentID
    rw [h1, h2]
  have hrun : runAnnounces st0 (c1 :: rest)
      = modifyQuery c1.fresh st0 c1.url c1.query
        :: runAnnounces (modifyQuery c1.fresh st0 c1.url c1.query).1 rest := rfl
  rw [hrun] at hok ⊢
  obtain ⟨u1, hu1⟩ := except_isOk_exists _ (hok _ (List.mem_cons_self _ _))
  obtain ⟨hmem1, params1, hp1, hraw1⟩ := modifyQuery_step_new c1.fresh st0 c1.url c1.query
    (perTrackerTorrentID c1.url (c1.query.get (gs "info_hash")))
    (hkey' c1 (List.mem_cons_self _ _)) hfirst (hstop c1 (List.mem_cons_self _ _)) u1 hu1
  have htail := runAnnounces_reuse c1.fresh
    (perTrackerTorrentID c1.url (c1.query.get (gs "info_hash"))) rest
    (modifyQuery c1.fresh st0 c1.url c1.query).1 hmem1
    (fun x hx => hkey' x (List.mem_cons_of_mem _ hx))
    (fun x hx => hstop x (List.mem_cons_of_mem _ hx))
    (fun r hr => hok r (List.mem_cons_of_mem _ hr))
  refine List.Forall₂.cons
    ⟨u1, params1, hu1, hp1, hraw1, (params_mem_identity _ _ _ hp1).1,
      (params_mem_identity _ _ _ hp1).2⟩ ?_
  refine List.Forall₂.imp ?_ htail
  rintro c r ⟨u', params, h1, h2, h3⟩
  exact ⟨u', params, h1, h2, h3, (params_mem_identity _ _ _ h2).1,
    (params_mem_identity _ _ _ h2).2⟩

/-- Closed instance of the identity-reuse theorem on a concrete two-announce
trace: a first `started` announce followed by an event-free announce, where
the factory would have minted a different identity for the second call. -/
theorem identity_reused_across_announces_witness :
    List.Forall₂ (fun (c : AnnounceCall) (r : TrState × Except (List Char) URL) =>
        ∃ u' params, r.2 = .ok u' ∧
        ProcessQuery announceQueryDefs (finalValues c.query exFresh) = .ok params ∧
        u'.rawQuery = assembleRaw (privateTrackerQueryOf c.url.rawQuery) params ∧
        QueryParam.mk (gs "peer_id") exFresh.peerID ∈ params ∧
        QueryParam.mk (gs "key") exFresh.key ∈ params)
      [AnnounceCall.mk exFresh exStartURL exStartQuery,
       AnnounceCall.mk exFresh2 exNoEventURL exNoEventQuery]
      (runAnnounces initialState
        [AnnounceCall.mk exFresh exStartURL exStartQuery,
         AnnounceCall.mk exFresh2 exNoEventURL exNoEventQuery]) :=
  identity_reused_across_announces initialState
    (AnnounceCall.mk exFresh exStartURL exStartQuery)
    [AnnounceCall.mk exFresh2 exNoEventURL exNoEventQuery]
    (by decide) (by decide) (by decide) (by decide)

/-- Claim C6: every identity the factory produces has a peer_id of exactly
20 bytes, the literal 8-byte prefix `-TR4060-` followed by 12 characters from
`[0-9a-z]`, and a key of exactly 8 characters from `[0-9A-F]` (the uppercase
hexadecimal rendering of the 4 random bytes). -/
theorem createPerTorrent_format (ns ks : List Nat)
    (hns : ns.length = 12) (hnsb : ∀ n ∈ ns, n < 36)
    (hks : ks.length = 4) (hksb : ∀ b ∈ ks, b < 256) :
    (createPerTorrent ns ks).peerID.length = 20 ∧
    (createPerTorrent ns ks).peerID.take 8 = gs "-TR4060-" ∧
    (∀ c ∈ (createPerTorrent ns ks).peerID.drop 8,
      ('0' ≤ c ∧ c ≤ '9') ∨ ('a' ≤ c ∧ c ≤ 'z')) ∧
    (createPerTorrent ns ks).key.length = 8 ∧
    (∀ c ∈ (createPerTorrent ns ks).key,
      ('0' ≤ c ∧ c ≤ '9') ∨ ('A' ≤ c ∧ c ≤ 'F')) := by
  unfold createPerTorrent
  have h8 : (gs "-TR4060-").length = 8 := rfl
  refine ⟨?_, ?_, ?_, ?_, ?_⟩
  · simp [h8, hns]
  · have h88 : (8 : Nat) = (gs "-TR4060-").length := rfl
    rw [h88, List.take_left]
  · have h88 : (8 : Nat) = (gs "-TR4060-").length := rfl
    rw [h88, List.drop_left]
    intro c hc
    rw [List.mem_map] at hc
    obtain ⟨n, hn, rfl⟩ := hc
    exact (by decide :
      ∀ m, m < 36 →
        ('0' ≤ peerIDCharSet.getD m '0' ∧ peerIDCharSet.getD m '0' ≤ '9') ∨
        ('a' ≤ peerIDCharSet.getD m '0' ∧ peerIDCharSet.getD m '0' ≤ 'z')) n (hnsb n hn)
  · match ks, hks with
    | [a, b, c, d], _ => simp [byteHexUpper]
  · intro c hc
    rw [List.mem_flatMap] at hc
    obtain ⟨b, hb, hcb⟩ := hc
    unfold byteHexUpper at hcb
    have hin : ∀ m, m < 16 →
        ('0' ≤ upperHexDigit m ∧ upperHexDigit m ≤ '9') ∨
        ('A' ≤ upperHexDigit m ∧ upperHexDigit m ≤ 'F') := by decide
    rcases List.mem_cons.mp hcb with rfl | hcb2
    · exact hin _ (Nat.mod_lt _ (by norm_num))
    · rcases List.mem_cons.mp hcb2 with rfl | hcb3
      · exact hin _ (Nat.mod_lt _ (by norm_num))
      · cases hcb3

/-- Closed instance of the identity-format theorem at concrete random draws. -/
theorem createPerTorrent_format_witness :
    (createPerTorrent [0, 1, 2, 3, 4, 5, 6, 7, 8, 9, 10, 35]
      [0, 15, 171, 255]).peerID.length = 20 ∧
    (createPerTorrent [0, 1, 2, 3, 4, 5, 6, 7, 8, 9, 10, 35]
      [0, 15, 171, 255]).peerID.take 8 = gs "-TR4060-" ∧
    (∀ c ∈ (createPerTorrent [0, 1, 2, 3, 4, 5, 6, 7, 8, 9, 10, 35]
      [0, 15, 171, 255]).peerID.drop 8,
      ('0' ≤ c ∧ c ≤ '9') ∨ ('a' ≤ c ∧ c ≤ 'z')) ∧
    (createPerTorrent [0, 1, 2, 3, 4, 5, 6, 7, 8, 9, 10, 35]
      [0, 15, 171, 255]).key.length = 8 ∧
    (∀ c ∈ (createPerTorrent [0, 1, 2, 3, 4, 5, 6, 7, 8, 9, 10, 35]
      [0, 15, 171, 255]).key,
      ('0' ≤ c ∧ c ≤ '9') ∨ ('A' ≤ c ∧ c ≤ 'F')) :=
  createPerTorrent_format [0, 1, 2, 3, 4, 5, 6, 7, 8, 9, 10, 35] [0, 15, 171, 255]
    (by decide) (by decide) (by decide) (by decide)

/-- Claim C9: the initial delay before a scrape task's first fire, computed at
registration from the random draw `r` of `rand.Int64N(9*1000)`, lies in the
interval [1000 ms, 10000 ms]; moreover the draw is only shifted, so distinct
draws give distinct delays (the distribution stays uniform). -/
theorem scrape_delay_interval (r : Nat) (h : r < 9000) :
    1000 ≤ scrapeStartDelayMs r ∧ scrapeStartDelayMs r ≤ 10000 ∧
    ∀ r2, r2 < 9000 → scrapeStartDelayMs r = scrapeStartDelayMs r2 → r = r2 := by
  refine ⟨?_, ?_, ?_⟩
  · unfold scrapeStartDelayMs; omega
  · unfold scrapeStartDelayMs; omega
  · intro r2 h2 he
    unfold scrapeStartDelayMs at he
    omega

/-- Closed instance of the scrape-delay theorem at a concrete draw. -/
theorem scrape_delay_interval_witness :
    1000 ≤ scrapeStartDelayMs 0 ∧ scrapeStartDelayMs 0 ≤ 10000 ∧
    ∀ r2, r2 < 9000 → scrapeStartDelayMs 0 = scrapeStartDelayMs r2 → 0 = r2 :=
  scrape_delay_interval 0 (by decide)

/-! ### Lemmas: path cleaning and the scrape URL builder -/

theorem splitOn_sep_append (sep : Char) (a b : List Char) :
    (a ++ sep :: b).splitOn sep = a.splitOn sep ++ b.splitOn sep := by
  induction a with
  | nil =>
    show (sep :: b).splitOn sep = [].splitOn sep ++ b.splitOn sep
    simp [List.splitOn, List.splitOnP_cons]
  | cons c a2 ih =>
    show ((c :: a2) ++ sep :: b).splitOn sep = (c :: a2).splitOn sep ++ b.splitOn sep
    by_cases hc : c = sep
    · subst hc
      show (c :: (a2 ++ c :: b)).splitOn c = _
      simp only [List.splitOn, List.splitOnP_cons, beq_self_eq_true, if_true]
      simp only [List.splitOn] at ih
      rw [ih]
      rfl
    · show (c :: (a2 ++ sep :: b)).splitOn sep = _
      simp only [List.splitOn, List.splitOnP_cons, beq_iff_eq, hc, if_false]
      simp only [List.splitOn] at ih
      rw [ih]
      cases hsp : List.splitOnP (fun x => x == sep) a2 with
      | nil => exact absurd hsp (List.splitOnP_ne_nil _ _)
      | cons h0 t0 => rfl

theorem mem_splitOn_not_mem (sep : Char) :
    ∀ (l : List Char), ∀ e ∈ l.splitOn sep, sep ∉ e := by
  intro l
  induction l with
  | nil =>
    intro e he
    simp [List.splitOn] at he
    subst he
    simp
  | cons c rest ih =>
    intro e he
    rw [show (c :: rest).splitOn sep = List.splitOnP (fun x => x == sep) (c :: rest) from rfl,
      List.splitOnP_cons] at he
    by_cases hc : c = sep
    · rw [if_pos (by simp [hc])] at he
      rcases List.mem_cons.mp he with rfl | he2
      · simp
      · exact ih e he2
    · rw [if_neg (by simp [hc])] at he
      cases hsp : rest.splitOn sep with
      | nil => exact absurd hsp (List.splitOnP_ne_nil _ _)
      | cons h0 t0 =>
        rw [show List.splitOnP (fun x => x == sep) rest = rest.splitOn sep from rfl, hsp] at he
        simp only [List.modifyHead] at he
        rcases List.mem_cons.mp he with rfl | he2
        · intro hmem
          rcases List.mem_cons.mp hmem with heq | hmem2
          · exact hc heq.symm
          · exact ih h0 (by rw [hsp]; exact List.mem_cons_self _ _) hmem2
        · exact ih e (by rw [hsp]; exact List.mem_cons_of_mem _ he2)

theorem cleanFold_append (es1 : List (List Char)) :
    ∀ (st : List (List Char)) (es2 : List (List Char)),
      cleanFold st (es1 ++ es2) = cleanFold (cleanFold st es1) es2 := by
  induction es1 with
  | nil => intro st es2; rfl
  | cons e es ih =>
    intro st es2
    show cleanFold st (e :: (es ++ es2)) = cleanFold (cleanFold st (e :: es)) es2
    by_cases h1 : e = [] ∨ e = gs "."
    · rw [cleanFold.eq_def]
      dsimp only
      rw [if_pos h1, show cleanFold st (e :: es) = cleanFold st es by
        rw [cleanFold.eq_def]; dsimp only; rw [if_pos h1]]
      exact ih st es2
    · by_cases h2 : e = gs ".."
      · rw [cleanFold.eq_def]
        dsimp only
        rw [if_neg h1, if_pos h2, show cleanFold st (e :: es) = cleanFold st.dropLast es by
          rw [cleanFold.eq_def]; dsimp only; rw [if_neg h1, if_pos h2]]
        exact ih st.dropLast es2
      · rw [cleanFold.eq_def]
        dsimp only
        rw [if_neg h1, if_neg h2, show cleanFold st (e :: es) = cleanFold (st ++ [e]) es by
          rw [cleanFold.eq_def]; dsimp only; rw [if_neg h1, if_neg h2]]
        exact ih (st ++ [e]) es2

theorem cleanFold_mem (es : List (List Char)) :
    ∀ st x, x ∈ cleanFold st es → x ∈ st ∨ x ∈ es := by
  induction es with
  | nil => intro st x hx; exact Or.inl hx
  | cons e es ih =>
    intro st x hx
    rw [cleanFold.eq_def] at hx
    dsimp only at hx
    by_cases h1 : e = [] ∨ e = gs "."
    · rw [if_pos h1] at hx
      rcases ih st x hx with h | h
      · exact Or.inl h
      · exact Or.inr (List.mem_cons_of_mem _ h)
    · rw [if_neg h1] at hx
      by_cases h2 : e = gs ".."
      · rw [if_pos h2] at hx
        rcases ih _ x hx with h | h
        · exact Or.inl (List.dropLast_subset _ h)
        · exact Or.inr (List.mem_cons_of_mem _ h)
      · rw [if_neg h2] at hx
        rcases ih _ x hx with h | h
        · rcases List.mem_append.mp h with h | h
          · exact Or.inl h
          · simp at h
            subst h
            exact Or.inr (List.mem_cons_self _ _)
        · exact Or.inr (List.mem_cons_of_mem _ h)

theorem cleanFold_plain (es : List (List Char))
    (h : ∀ e ∈ es, e ≠ [] ∧ e ≠ gs "." ∧ e ≠ gs "..") :
    ∀ st, cleanFold st es = st ++ es := by
  induction es with
  | nil => intro st; simp [cleanFold]
  | cons e es ih =>
    intro st
    obtain ⟨h1, h2, h3⟩ := h e (List.mem_cons_self _ _)
    rw [cleanFold.eq_def]
    dsimp only
    rw [if_neg (by rintro (hh | hh); exact h1 hh; exact h2 hh), if_neg h3]
    rw [ih (fun x hx => h x (List.mem_cons_of_mem _ hx)) (st ++ [e])]
    simp

theorem rootedClean_scrapeElems (p : List Char) :
    rootedClean (p ++ '/' :: gs "../scrape")
      = '/' :: List.intercalate (gs "/")
          ((cleanFold [] (p.splitOn '/')).dropLast ++ [gs "scrape"]) := by
  unfold rootedClean
  rw [splitOn_sep_append]
  rw [show (gs "../scrape").splitOn '/' = [gs "..", gs "scrape"] from rfl]
  rw [cleanFold_append]
  have hstep : ∀ S : List (List Char),
      cleanFold S [gs "..", gs "scrape"] = S.dropLast ++ [gs "scrape"] := by
    intro S
    rw [cleanFold.eq_def]
    dsimp only
    rw [if_neg (by decide), if_pos (by decide)]
    rw [cleanFold.eq_def]
    dsimp only
    rw [if_neg (by decide), if_neg (by decide)]
    rfl
  rw [hstep]
  cases hY : (cleanFold [] (p.splitOn '/')).dropLast with
  | nil => rfl
  | cons y ys => rfl

theorem cons_intercalate_splitOn (S : List (List Char)) (hne : S ≠ [])
    (hS : ∀ e ∈ S, '/' ∉ e) :
    ('/' :: List.intercalate (gs "/") S).splitOn '/' = [] :: S := by
  have h0 : ('/' :: List.intercalate (gs "/") S)
      = [] ++ '/' :: List.intercalate (gs "/") S := rfl
  rw [h0, splitOn_sep_append]
  rw [show List.intercalate (gs "/") S = List.intercalate ['/'] S from rfl]
  rw [List.splitOn_intercalate _ '/' hS hne]
  rfl

theorem urlJoinPath_scrape_last (p : List Char) :
    ((urlJoinPath p (gs "../scrape")).splitOn '/').getLast? = some (gs "scrape") := by
  have hmain : ∀ r : List Char,
      (((rootedClean (r ++ '/' :: gs "../scrape"))).splitOn '/').getLast?
        = some (gs "scrape") := by
    intro r
    rw [rootedClean_scrapeElems]
    have hS : ∀ e ∈ (cleanFold [] (r.splitOn '/')).dropLast ++ [gs "scrape"], '/' ∉ e := by
      intro e he
      rcases List.mem_append.mp he with he | he
      · have := cleanFold_mem _ [] e (List.dropLast_subset _ he)
        rcases this with h | h
        · cases h
        · exact mem_splitOn_not_mem '/' r e h
      · simp at he
        subst he
        decide
    rw [cons_intercalate_splitOn _ (by simp) hS]
    rw [show ([] :: ((cleanFold [] (r.splitOn '/')).dropLast ++ [gs "scrape"]))
        = (([] :: (cleanFold [] (r.splitOn '/')).dropLast) ++ [gs "scrape"]) from rfl]
    exact List.getLast?_concat _
  unfold urlJoinPath
  by_cases hr : (gs "/").isPrefixOf p = true
  · rw [if_pos hr]
    exact hmain p
  · rw [if_neg hr]
    have h2 : ('/' :: p ++ '/' :: gs "../scrape")
        = (('/' :: p) ++ '/' :: gs "../scrape") := rfl
    rw [h2, rootedClean_scrapeElems]
    dsimp only [List.drop]
    have hS : ∀ e ∈ (cleanFold [] (('/' :: p).splitOn '/')).dropLast ++ [gs "scrape"],
        '/' ∉ e := by
      intro e he
      rcases List.mem_append.mp he with he | he
      · have := cleanFold_mem _ [] e (List.dropLast_subset _ he)
        rcases this with h | h
        · cases h
        · exact mem_splitOn_not_mem '/' ('/' :: p) e h
      · simp at he
        subst he
        decide
    rw [show List.intercalate (gs "/")
          ((cleanFold [] (('/' :: p).splitOn '/')).dropLast ++ [gs "scrape"])
        = List.intercalate ['/']
          ((cleanFold [] (('/' :: p).splitOn '/')).dropLast ++ [gs "scrape"]) from rfl]
    rw [List.splitOn_intercalate _ '/' hS (by simp)]
    exact List.getLast?_concat _

/-- Counterexample to claim C7 as stated: on the announce path `/x/../announce`
the builder returns the lexically cleaned path `/scrape`, not the literal
suffix replacement `/x/../scrape` that the claim prescribes. -/
theorem scrapeURL_not_literal_replacement :
    (scrapeURL (URL.mk (gs "http") (gs "t") (gs "/x/../announce") []) (gs "a") []).map URL.path
      = some (gs "/scrape") ∧
    ¬ ((gs "/scrape" : List Char) = gs "/x/.." ++ gs "/scrape") := by
  exact ⟨by decide, by decide⟩

/-- Claim C7 (amended): the builder returns none exactly when the announce
path does not end in the literal `/announce`; otherwise the produced URL keeps
the scheme and authority, its path is the lexical cleaning of the announce
path joined with `../scrape` - for a clean rooted announce path `/e1/…/ek/announce`
that is exactly the trailing `announce` segment replaced by `scrape` - its
path's final segment is `scrape`, and its query is `info_hash=<percent-encoded>`
preceded by the private prefix and `&` iff that prefix is non-empty, the
announce URL's own query being discarded. -/
theorem scrapeURL_spec (u : URL) (infoHash ptq : List Char) :
    (scrapeURL u infoHash ptq = none ↔ ¬ (gs "/announce").isSuffixOf u.path = true) ∧
    ∀ v, scrapeURL u infoHash ptq = some v →
      v.scheme = u.scheme ∧ v.host = u.host ∧
      (v.path.splitOn '/').getLast? = some (gs "scrape") ∧
      v.rawQuery = (if ptq ≠ [] then ptq ++ '&' :: (gs "info_hash=" ++ queryEscape infoHash)
        else gs "info_hash=" ++ queryEscape infoHash) ∧
      (∀ es, (∀ e ∈ es, e ≠ [] ∧ e ≠ gs "." ∧ e ≠ gs ".." ∧ '/' ∉ e) →
        u.path = '/' :: List.intercalate (gs "/") (es ++ [gs "announce"]) →
        v.path = '/' :: List.intercalate (gs "/") (es ++ [gs "scrape"])) := by
  constructor
  · by_cases hsuf : (gs "/announce").isSuffixOf u.path = true
    · constructor
      · intro hnone
        unfold scrapeURL at hnone
        rw [if_neg (fun k => k hsuf)] at hnone
        cases hnone
      · intro hns
        exact absurd hsuf hns
    · constructor
      · intro _
        exact hsuf
      · intro _
        unfold scrapeURL
        rw [if_pos hsuf]
  · intro v hv
    unfold scrapeURL at hv
    by_cases hsuf : (gs "/announce").isSuffixOf u.path = true
    · rw [if_neg (fun k => k hsuf)] at hv
      dsimp only at hv
      injection hv with hv
      subst hv
      refine ⟨rfl, rfl, urlJoinPath_scrape_last u.path, rfl, ?_⟩
      intro es hes hup
      show urlJoinPath u.path (gs "../scrape") = _
      unfold urlJoinPath
      rw [if_pos (by rw [hup]; simp [List.isPrefixOf])]
      rw [rootedClean_scrapeElems]
      have hsplit : u.path.splitOn '/' = [] :: (es ++ [gs "announce"]) := by
        rw [hup]
        apply cons_intercalate_splitOn
        · simp
        · intro e he
          rcases List.mem_append.mp he with he | he
          · exact (hes e he).2.2.2
          · simp at he
            subst he
            decide
      rw [hsplit]
      have hplain : ∀ e ∈ es ++ [gs "announce"], e ≠ [] ∧ e ≠ gs "." ∧ e ≠ gs ".." := by
        intro e he
        rcases List.mem_append.mp he with he | he
        · exact ⟨(hes e he).1, (hes e he).2.1, (hes e he).2.2.1⟩
        · simp at he
          subst he
          exact ⟨by decide, by decide, by decide⟩
      have hclean : cleanFold [] ([] :: (es ++ [gs "announce"])) = es ++ [gs "announce"] := by
        rw [cleanFold.eq_def]
        dsimp only
        rw [if_pos (Or.inl rfl), cleanFold_plain _ hplain []]
        rfl
      rw [hclean, List.dropLast_concat]
    · rw [if_pos hsuf] at hv
      cases hv

/-- Closed instance of the amended C7 theorem at the announce URL
`http://tracker.example.com/tracker/announce` with info_hash `abc` and an
empty prefix, giving `http://tracker.example.com/tracker/scrape?info_hash=abc`. -/
theorem scrapeURL_spec_witness :
    scrapeURL (URL.mk (gs "http") (gs "tracker.example.com") (gs "/tracker/announce") [])
        (gs "abc") []
      = some (URL.mk (gs "http") (gs "tracker.example.com") (gs "/tracker/scrape")
          (gs "info_hash=abc")) ∧
    ((URL.mk (gs "http") (gs "tracker.example.com") (gs "/tracker/scrape")
        (gs "info_hash=abc")).path.splitOn '/').getLast? = some (gs "scrape") ∧
    (URL.mk (gs "http") (gs "tracker.example.com") (gs "/tracker/scrape")
        (gs "info_hash=abc")).rawQuery = gs "info_hash=" ++ queryEscape (gs "abc") := by
  have h := (scrapeURL_spec
    (URL.mk (gs "http") (gs "tracker.example.com") (gs "/tracker/announce") [])
    (gs "abc") []).2
    (URL.mk (gs "http") (gs "tracker.example.com") (gs "/tracker/scrape") (gs "info_hash=abc"))
    (by rfl)
  exact ⟨by rfl, h.2.2.1, by simpa using h.2.2.2.1⟩

end Camouflage
